import Mathlib

/-!
Verification of the phase-sector classification and boundary-extraction
engine of the Phase-Bifurcation-Cosmogenesis repository.

Shallow embedding conventions:
* Python floats are embedded as rational numbers (`ℚ`); `np.pi` becomes an
  explicit parameter `piQ` of the functions that use it.
* `np.sign` is embedded as `qsign`, `np.mod x p` as `npMod p x`
  (`x - p * ⌊x / p⌋`, which agrees with numpy for `p > 0`).
* A comparison `std < tol` on a numpy standard deviation (a square root)
  is embedded as `variance < tol ^ 2`: for nonnegative operands the two
  are equivalent because squaring is strictly monotone, and the variance
  keeps every quantity rational.
* `np.argsort` followed by fancy indexing of two parallel arrays is
  embedded as a stable `mergeSort` of the zipped list by first component.
* A numpy NaN response is embedded as `Option ℚ` with `none` for NaN.
-/

/-- Embedding of `np.sign` restricted to rational inputs:
`1` for positive, `-1` for negative, `0` for zero. -/
def qsign (x : ℚ) : ℚ :=
  if 0 < x then 1 else if x < 0 then -1 else 0

/-- Embedding of `np.mean` on a list of rationals (`0` on the empty list,
which only arises for empty tails). -/
def listMean (l : List ℚ) : ℚ := l.sum / l.length

/-- Embedding of the square of `np.std` (population variance, `ddof = 0`),
as used by `classify_phase_trajectory` in `phase_sector_scan.py`. -/
def listVar (l : List ℚ) : ℚ :=
  ((l.map (fun x => (x - listMean l) ^ 2)).sum) / l.length

/-- Embedding of `np.mod x p` (`x` reduced into `[0, p)` for `p > 0`). -/
def npMod (p x : ℚ) : ℚ := x - p * ⌊x / p⌋

/-! ### Continuous boundary extractor: `find_mphi_crit` in
`src/scripts/compute_mphi_crit.py`, lines 115-133. -/

/-- The scanning loop of `find_mphi_crit` (lines 123-133): walk consecutive
pairs `(coordinate, response)`; on a strict sign change of
`response - target` (product of signs `< 0`), if the two responses differ,
return the linearly interpolated coordinate, otherwise keep scanning;
return `none` when the scan ends without a crossing. -/
def findCrossAux (target : ℚ) : List (ℚ × ℚ) → Option ℚ
  | p :: q :: rest =>
    if qsign (p.2 - target) * qsign (q.2 - target) < 0 then
      if q.2 ≠ p.2 then
        some (p.1 + (target - p.2) / (q.2 - p.2) * (q.1 - p.1))
      else findCrossAux target (q :: rest)
    else findCrossAux target (q :: rest)
  | _ => none

/-- Embedding of `find_mphi_crit(mphi_vals, PA_means, target)`: the
`np.argsort` of the coordinates applied to both parallel arrays is a stable
sort of the zipped pairs by coordinate, followed by the scanning loop. -/
def find_mphi_crit (mphi_vals PA_means : List ℚ) (target : ℚ) : Option ℚ :=
  findCrossAux target
    ((mphi_vals.zip PA_means).mergeSort (fun a b => decide (a.1 ≤ b.1)))

/-- The sign-change test of line 124 at pair `i` of a coordinate/response
list (`(response i - target)` and `(response (i+1) - target)` have strictly
opposite signs). -/
def signChangeAt (target : ℚ) (L : List (ℚ × ℚ)) (i : ℕ) : Prop :=
  qsign ((L.getD i (0, 0)).2 - target) *
    qsign ((L.getD (i + 1) (0, 0)).2 - target) < 0

instance (target : ℚ) (L : List (ℚ × ℚ)) (i : ℕ) :
    Decidable (signChangeAt target L i) := by
  unfold signChangeAt; infer_instance

/-! ### Trajectory classifier: `classify_phase_trajectory` in
`src/scripts/phase_sector_scan.py`, lines 42-75. -/

/-- Convergence tolerance `tol_conv = 0.08` of line 64. -/
def tol_conv : ℚ := 8 / 100

/-- Distance-to-π tolerance `tol_pi = 0.25` of line 65. -/
def tol_pi : ℚ := 1 / 4

/-- Lines 57-58 of `phase_sector_scan.py`: the last 10% of the samples
(from index `int(0.9 * n)` on), reduced mod `2π`.  `piQ` stands for the
float `np.pi`. -/
def tailMod (piQ : ℚ) (arr : List ℚ) : List ℚ :=
  (arr.drop (9 * arr.length / 10)).map (npMod (2 * piQ))

/-- Embedding of `classify_phase_trajectory(delta_phi_arr)`: sequences
shorter than 50 are `"C"`; otherwise the mod-`2π` tail's standard
deviation and mean are compared against the tolerances.  `std < tol_conv`
is embedded as `variance < tol_conv ^ 2`. -/
def classify_phase_trajectory (piQ : ℚ) (delta_phi_arr : List ℚ) : String :=
  if delta_phi_arr.length < 50 then "C"
  else
    let phi_mod := tailMod piQ delta_phi_arr
    let phi_mean := listMean phi_mod
    let phi_var := listVar phi_mod
    if phi_var < tol_conv ^ 2 ∧ phi_mean < piQ - tol_pi then "A"
    else if phi_var < tol_conv ^ 2 ∧ |phi_mean - piQ| < tol_pi then "B"
    else "C"

/-! ### Helper views of a zipped coordinate/response list -/

/-- Coordinate at index `i` of a zipped `(coordinate, response)` list. -/
def coordAt (L : List (ℚ × ℚ)) (i : ℕ) : ℚ := (L.getD i (0, 0)).1

/-- Response at index `i` of a zipped `(coordinate, response)` list. -/
def respAt (L : List (ℚ × ℚ)) (i : ℕ) : ℚ := (L.getD i (0, 0)).2

/-- The interpolation formula of lines 129-131 applied at pair `i`:
`c1 + (target - r1) / (r2 - r1) * (c2 - c1)`. -/
def interpAt (target : ℚ) (L : List (ℚ × ℚ)) (i : ℕ) : ℚ :=
  coordAt L i +
    (target - respAt L i) / (respAt L (i + 1) - respAt L i) *
      (coordAt L (i + 1) - coordAt L i)

theorem qsign_of_pos {a : ℚ} (h : 0 < a) : qsign a = 1 := if_pos h

theorem qsign_of_neg {a : ℚ} (h : a < 0) : qsign a = -1 := by
  unfold qsign
  rw [if_neg (by linarith), if_pos h]

theorem qsign_mul_neg_iff {a b : ℚ} :
    qsign a * qsign b < 0 ↔ (0 < a ∧ b < 0) ∨ (a < 0 ∧ 0 < b) := by
  constructor
  · intro h
    rcases lt_trichotomy 0 a with ha | ha | ha
    · rcases lt_trichotomy 0 b with hb | hb | hb
      · rw [qsign_of_pos ha, qsign_of_pos hb] at h; norm_num at h
      · rw [qsign_of_pos ha, ← hb] at h
        simp [qsign] at h
      · exact Or.inl ⟨ha, hb⟩
    · rw [← ha] at h; simp [qsign] at h
    · rcases lt_trichotomy 0 b with hb | hb | hb
      · exact Or.inr ⟨ha, hb⟩
      · rw [qsign_of_neg ha, ← hb] at h; simp [qsign] at h
      · rw [qsign_of_neg ha, qsign_of_neg hb] at h; norm_num at h
  · rintro (⟨ha, hb⟩ | ⟨ha, hb⟩)
    · rw [qsign_of_pos ha, qsign_of_neg hb]; norm_num
    · rw [qsign_of_neg ha, qsign_of_pos hb]; norm_num

theorem respAt_ne_of_signChange {t : ℚ} {L : List (ℚ × ℚ)} {i : ℕ}
    (h : signChangeAt t L i) : respAt L (i + 1) ≠ respAt L i := by
  have := qsign_mul_neg_iff.mp h
  unfold respAt
  rcases this with ⟨h1, h2⟩ | ⟨h1, h2⟩ <;> intro he <;> rw [he] at h2 <;> linarith

theorem signChangeAt_cons_succ {t : ℚ} {p : ℚ × ℚ} {L : List (ℚ × ℚ)} {j : ℕ} :
    signChangeAt t (p :: L) (j + 1) ↔ signChangeAt t L j := by
  simp [signChangeAt, List.getD_cons_succ]

theorem findCrossAux_cons_cons_of_not {t : ℚ} {p q : ℚ × ℚ} {rest : List (ℚ × ℚ)}
    (h : ¬ qsign (p.2 - t) * qsign (q.2 - t) < 0) :
    findCrossAux t (p :: q :: rest) = findCrossAux t (q :: rest) := by
  simp only [findCrossAux]
  rw [if_neg h]

/-- The scanning loop returns the interpolation at the first sign-changing
pair. -/
theorem findCrossAux_of_first (t : ℚ) :
    ∀ (i : ℕ) (L : List (ℚ × ℚ)), i + 1 < L.length →
      (∀ j, j < i → ¬ signChangeAt t L j) → signChangeAt t L i →
      findCrossAux t L = some (interpAt t L i) := by
  intro i
  induction i with
  | zero =>
    intro L hlen _ hc
    rcases L with _ | ⟨p, L'⟩
    · simp at hlen
    rcases L' with _ | ⟨q, rest⟩
    · simp at hlen
    have hcond : qsign (p.2 - t) * qsign (q.2 - t) < 0 := by
      simpa [signChangeAt, respAt] using hc
    have hne : q.2 ≠ p.2 := by
      have := respAt_ne_of_signChange hc
      simpa [respAt] using this
    simp only [findCrossAux]
    rw [if_pos hcond, if_pos hne]
    simp [interpAt, coordAt, respAt]
  | succ i ih =>
    intro L hlen hfirst hc
    rcases L with _ | ⟨p, L'⟩
    · simp at hlen
    rcases L' with _ | ⟨q, rest⟩
    · simp at hlen
    have h0 : ¬ signChangeAt t (p :: q :: rest) 0 := hfirst 0 (Nat.succ_pos i)
    have h0' : ¬ qsign (p.2 - t) * qsign (q.2 - t) < 0 := by
      simpa [signChangeAt, respAt] using h0
    rw [findCrossAux_cons_cons_of_not h0']
    have hres := ih (q :: rest) (by simp at hlen ⊢; omega)
      (fun j hj => by
        have := hfirst (j + 1) (Nat.succ_lt_succ hj)
        exact fun hcj => this (signChangeAt_cons_succ.mpr hcj))
      (signChangeAt_cons_succ.mp hc)
    rw [hres]
    simp [interpAt, coordAt, respAt, List.getD_cons_succ]

/-- The scanning loop returns `none` when no pair changes sign. -/
theorem findCrossAux_of_none (t : ℚ) :
    ∀ L : List (ℚ × ℚ),
      (∀ j, j + 1 < L.length → ¬ signChangeAt t L j) →
      findCrossAux t L = none := by
  intro L
  induction L with
  | nil => intro _; rfl
  | cons p L ih =>
    intro hnone
    match L, ih with
    | [], _ => rfl
    | q :: rest, ih =>
      have h0 : ¬ qsign (p.2 - t) * qsign (q.2 - t) < 0 := by
        have := hnone 0 (by simp)
        simpa [signChangeAt, respAt] using this
      rw [findCrossAux_cons_cons_of_not h0]
      exact ih fun j hj => by
        have := hnone (j + 1) (by simpa using Nat.succ_lt_succ hj)
        exact fun hcj => this (signChangeAt_cons_succ.mpr hcj)

/-- On a coordinate-sorted pair list, `np.argsort` leaves the data in
place, so `find_mphi_crit` is the bare scanning loop. -/
theorem find_mphi_crit_eq_aux (mphi_vals PA_means : List ℚ) (t : ℚ)
    (hs : List.Pairwise (fun a b : ℚ × ℚ => a.1 ≤ b.1) (mphi_vals.zip PA_means)) :
    find_mphi_crit mphi_vals PA_means t = findCrossAux t (mphi_vals.zip PA_means) := by
  unfold find_mphi_crit
  rw [List.mergeSort_of_sorted (hs.imp fun h => decide_eq_true h)]

theorem interp_frac_pos_lt_one {t r1 r2 : ℚ}
    (h : (0 < r1 - t ∧ r2 - t < 0) ∨ (r1 - t < 0 ∧ 0 < r2 - t)) :
    0 < (t - r1) / (r2 - r1) ∧ (t - r1) / (r2 - r1) < 1 := by
  rcases h with ⟨h1, h2⟩ | ⟨h1, h2⟩
  · have hnum : t - r1 < 0 := by linarith
    have hden : r2 - r1 < 0 := by linarith
    refine ⟨div_pos_of_neg_of_neg hnum hden, ?_⟩
    have hrw : (t - r1) / (r2 - r1) = (r1 - t) / (r1 - r2) := by
      rw [← neg_div_neg_eq]; ring_nf
    rw [hrw]
    rw [div_lt_one (by linarith)]
    linarith
  · have hnum : 0 < t - r1 := by linarith
    have hden : 0 < r2 - r1 := by linarith
    refine ⟨div_pos hnum hden, ?_⟩
    rw [div_lt_one hden]
    linarith

theorem interp_exact_linear {t r1 r2 c1 c2 a b : ℚ}
    (h1 : r1 = a * c1 + b) (h2 : r2 = a * c2 + b) (hne : r1 ≠ r2) :
    a * (c1 + (t - r1) / (r2 - r1) * (c2 - c1)) + b = t := by
  have hr : r2 - r1 = a * (c2 - c1) := by rw [h1, h2]; ring
  have hne' : r2 - r1 ≠ 0 := sub_ne_zero.2 (Ne.symm hne)
  have hstep : a * (c1 + (t - r1) / (r2 - r1) * (c2 - c1)) + b
      = r1 + (t - r1) * ((a * (c2 - c1)) / (r2 - r1)) := by
    rw [h1]; ring
  rw [hstep, ← hr, div_self hne', mul_one]
  ring

/-- C1: For every sorted coordinate sequence and response sequence, the
continuous boundary extractor `find_mphi_crit` scans consecutive pairs and
on the first pair (lowest coordinate) where `response - target` strictly
changes sign (product of signs `< 0`) returns the linearly interpolated
coordinate `c1 + (target - r1) / (r2 - r1) * (c2 - c1)`; the returned
coordinate lies strictly between the two bracketing coordinates, and when
the responses are an exactly linear function of the coordinate the result
is the exact solution of `response = target`; only the first crossing is
reported (later sign changes are irrelevant to the result). -/
theorem C1_first_crossing_linear_interpolation
    (mphi_vals PA_means : List ℚ) (target : ℚ) (i : ℕ)
    (hsort : List.Pairwise (fun a b : ℚ × ℚ => a.1 ≤ b.1) (mphi_vals.zip PA_means))
    (hlen : i + 1 < (mphi_vals.zip PA_means).length)
    (hfirst : ∀ j, j < i → ¬ signChangeAt target (mphi_vals.zip PA_means) j)
    (hcross : signChangeAt target (mphi_vals.zip PA_means) i) :
    find_mphi_crit mphi_vals PA_means target
        = some (interpAt target (mphi_vals.zip PA_means) i)
      ∧ (coordAt (mphi_vals.zip PA_means) i < coordAt (mphi_vals.zip PA_means) (i + 1) →
          coordAt (mphi_vals.zip PA_means) i < interpAt target (mphi_vals.zip PA_means) i
          ∧ interpAt target (mphi_vals.zip PA_means) i
              < coordAt (mphi_vals.zip PA_means) (i + 1))
      ∧ (∀ a b : ℚ,
          (∀ j, j < (mphi_vals.zip PA_means).length →
            respAt (mphi_vals.zip PA_means) j
              = a * coordAt (mphi_vals.zip PA_means) j + b) →
          a * interpAt target (mphi_vals.zip PA_means) i + b = target) := by
  set L := mphi_vals.zip PA_means with hL
  have hsigns : (0 < respAt L i - target ∧ respAt L (i + 1) - target < 0)
      ∨ (respAt L i - target < 0 ∧ 0 < respAt L (i + 1) - target) :=
    qsign_mul_neg_iff.mp hcross
  refine ⟨?_, ?_, ?_⟩
  · rw [find_mphi_crit_eq_aux _ _ _ hsort]
    exact findCrossAux_of_first target i L hlen hfirst hcross
  · intro hcc
    have hfr := interp_frac_pos_lt_one hsigns
    have hd : 0 < coordAt L (i + 1) - coordAt L i := sub_pos.2 hcc
    have hmul : 0 < (target - respAt L i) / (respAt L (i + 1) - respAt L i) *
        (coordAt L (i + 1) - coordAt L i) := mul_pos hfr.1 hd
    have hlt : (target - respAt L i) / (respAt L (i + 1) - respAt L i) *
        (coordAt L (i + 1) - coordAt L i) < coordAt L (i + 1) - coordAt L i :=
      (mul_lt_iff_lt_one_left hd).mpr hfr.2
    unfold interpAt
    constructor <;> linarith
  · intro a b hlin
    have h1 := hlin i (Nat.lt_of_succ_lt hlen)
    have h2 := hlin (i + 1) hlen
    have hne : respAt L i ≠ respAt L (i + 1) :=
      (respAt_ne_of_signChange hcross).symm
    unfold interpAt
    exact interp_exact_linear h1 h2 hne

/-- Witness for C1 at the spec's linear example: responses
`0.2 * coord + 0.1` sampled at coordinates `1` and `3` bracket the target
`0.5`, and the extractor returns exactly `2`. -/
theorem C1_witness :
    find_mphi_crit [1, 3] [3/10, 7/10] (1/2) = some 2 := by
  have h := C1_first_crossing_linear_interpolation [1, 3] [3/10, 7/10] (1/2) 0
    (by norm_num [List.zip, List.pairwise_cons])
    (by simp [List.zip])
    (by intro j hj; exact absurd hj (Nat.not_lt_zero j))
    (by norm_num [signChangeAt, List.zip, qsign])
  rw [h.1]
  norm_num [interpAt, coordAt, respAt, List.zip]

/-- C8: For every coordinate and response sequence in which
`response - target` never strictly changes sign between consecutive
points, the continuous boundary extractor returns the distinguished `none`
result (not an error), which is representable distinctly from every
numeric crossing value. -/
theorem C8_no_crossing_returns_none (mphi_vals PA_means : List ℚ) (target : ℚ)
    (hsort : List.Pairwise (fun a b : ℚ × ℚ => a.1 ≤ b.1) (mphi_vals.zip PA_means))
    (hnone : ∀ j, j + 1 < (mphi_vals.zip PA_means).length →
      ¬ signChangeAt target (mphi_vals.zip PA_means) j) :
    find_mphi_crit mphi_vals PA_means target = none
    ∧ ∀ x : ℚ, find_mphi_crit mphi_vals PA_means target ≠ some x := by
  have h : find_mphi_crit mphi_vals PA_means target = none := by
    rw [find_mphi_crit_eq_aux _ _ _ hsort]
    exact findCrossAux_of_none target _ hnone
  refine ⟨h, fun x hx => ?_⟩
  rw [h] at hx
  exact Option.noConfusion hx

/-- Witness for C8: responses `0.1, 0.2` never reach the target `0.5`,
and the extractor returns `none`. -/
theorem C8_witness :
    find_mphi_crit [1, 2] [1/10, 2/10] (1/2) = none := by
  have h := C8_no_crossing_returns_none [1, 2] [1/10, 2/10] (1/2)
    (by norm_num [List.zip, List.pairwise_cons])
    (by
      intro j hj
      have hj2 : j + 1 < 2 := by simpa [List.zip] using hj
      have hj0 : j = 0 := by omega
      subst hj0
      norm_num [signChangeAt, List.zip, qsign])
  exact h.1

/-- C9: A pair of consecutive identical responses is skipped without a
crash: the scan continues on the remaining pairs, so the extractor returns
the next valid crossing found there, or `none` if no other exists.  (Two
identical responses can never have strictly opposite signs, so the
sign-change test of line 124 already rejects the pair and the guard
`p2 != p1` of line 129 never divides by the zero response difference.) -/
theorem C9_identical_responses_pair_skipped (target c1 c2 r : ℚ)
    (rest : List (ℚ × ℚ)) :
    findCrossAux target ((c1, r) :: (c2, r) :: rest)
      = findCrossAux target ((c2, r) :: rest) := by
  apply findCrossAux_cons_cons_of_not
  exact not_lt.mpr (mul_self_nonneg _)

/-! ### Facts about the mod-2π reduction and tail statistics -/

theorem npMod_nonneg {p : ℚ} (hp : 0 < p) (x : ℚ) : 0 ≤ npMod p x := by
  unfold npMod
  have h1 : (⌊x / p⌋ : ℚ) ≤ x / p := Int.floor_le _
  have h2 : p * (⌊x / p⌋ : ℚ) ≤ p * (x / p) := mul_le_mul_of_nonneg_left h1 hp.le
  have h3 : p * (x / p) = x := by field_simp
  linarith

theorem npMod_add_int_mul {p : ℚ} (hp : p ≠ 0) (x : ℚ) (k : ℤ) :
    npMod p (x + p * k) = npMod p x := by
  unfold npMod
  have hdiv : (x + p * k) / p = x / p + k := by
    field_simp
    ring
  rw [hdiv, Int.floor_add_int]
  push_cast
  ring

theorem listMean_nonneg (l : List ℚ) (h : ∀ x ∈ l, 0 ≤ x) : 0 ≤ listMean l :=
  div_nonneg (List.sum_nonneg h) (Nat.cast_nonneg _)

/-- C2: For every real-valued input sequence, the classifier returns `"A"`
exactly when the sequence reaches the minimum length 50 and the mod-2π
tail has variance strictly below `tol_conv ^ 2` (that is, standard
deviation strictly below the convergence tolerance) and mean within the
band of half-width `piQ - tol_pi` around the first reference value `0`;
it returns `"B"` exactly when the tail variance is strictly below the
tolerance and the mean is within `tol_pi` of the second reference value
π; it returns `"C"` otherwise, and in particular for every sequence
shorter than 50; all boundary ties resolve by strict `<`. -/
theorem C2_classifier_characterization (piQ : ℚ) (hpi : 0 < piQ) (arr : List ℚ) :
    (classify_phase_trajectory piQ arr = "A"
      ↔ 50 ≤ arr.length ∧ listVar (tailMod piQ arr) < tol_conv ^ 2
          ∧ |listMean (tailMod piQ arr) - 0| < piQ - tol_pi)
    ∧ (classify_phase_trajectory piQ arr = "B"
      ↔ 50 ≤ arr.length ∧ listVar (tailMod piQ arr) < tol_conv ^ 2
          ∧ |listMean (tailMod piQ arr) - piQ| < tol_pi)
    ∧ (classify_phase_trajectory piQ arr = "C"
      ↔ arr.length < 50
        ∨ (¬ (listVar (tailMod piQ arr) < tol_conv ^ 2
              ∧ |listMean (tailMod piQ arr) - 0| < piQ - tol_pi)
           ∧ ¬ (listVar (tailMod piQ arr) < tol_conv ^ 2
              ∧ |listMean (tailMod piQ arr) - piQ| < tol_pi)))
    ∧ (arr.length < 50 → classify_phase_trajectory piQ arr = "C") := by
  have hmod_nonneg : ∀ x ∈ tailMod piQ arr, 0 ≤ x := by
    intro x hx
    simp only [tailMod, List.mem_map] at hx
    obtain ⟨y, _, rfl⟩ := hx
    exact npMod_nonneg (by linarith) y
  have hmean0 : 0 ≤ listMean (tailMod piQ arr) := listMean_nonneg _ hmod_nonneg
  simp only [classify_phase_trajectory]
  set μ := listMean (tailMod piQ arr) with hμ
  set v := listVar (tailMod piQ arr) with hv
  have habs : |μ - 0| = μ := by rw [sub_zero, abs_of_nonneg hmean0]
  have hBnotA : |μ - piQ| < tol_pi → ¬ μ < piQ - tol_pi := by
    intro h hA
    have h' := (abs_lt.mp h).1
    linarith
  by_cases hn : arr.length < 50
  · simp only [if_pos hn]
    exact ⟨iff_of_false (by decide) (fun h => by omega),
      iff_of_false (by decide) (fun h => by omega),
      iff_of_true trivial (Or.inl hn),
      fun _ => trivial⟩
  · have h50 : 50 ≤ arr.length := Nat.le_of_not_lt hn
    simp only [if_neg hn]
    by_cases hA : v < tol_conv ^ 2 ∧ μ < piQ - tol_pi
    · simp only [if_pos hA]
      refine ⟨iff_of_true trivial ⟨h50, hA.1, by rw [habs]; exact hA.2⟩,
        iff_of_false (by decide) (fun h => hBnotA h.2.2 hA.2),
        iff_of_false (by decide) ?_, fun hlt => absurd hlt hn⟩
      rintro (h | ⟨hnA, _⟩)
      · exact hn h
      · exact hnA ⟨hA.1, by rw [habs]; exact hA.2⟩
    · simp only [if_neg hA]
      by_cases hB : v < tol_conv ^ 2 ∧ |μ - piQ| < tol_pi
      · simp only [if_pos hB]
        refine ⟨iff_of_false (by decide) ?_,
          iff_of_true trivial ⟨h50, hB.1, hB.2⟩,
          iff_of_false (by decide) ?_, fun hlt => absurd hlt hn⟩
        · rintro ⟨_, hv', habs'⟩
          exact hA ⟨hv', by rw [habs] at habs'; exact habs'⟩
        · rintro (h | ⟨_, hnB⟩)
          · exact hn h
          · exact hnB hB
      · simp only [if_neg hB]
        refine ⟨iff_of_false (by decide) ?_, iff_of_false (by decide) ?_,
          iff_of_true trivial ?_, fun _ => trivial⟩
        · rintro ⟨_, hv', habs'⟩
          exact hA ⟨hv', by rw [habs] at habs'; exact habs'⟩
        · rintro ⟨_, hv', habs'⟩
          exact hB ⟨hv', habs'⟩
        · refine Or.inr ⟨?_, hB⟩
          rintro ⟨hv', habs'⟩
          exact hA ⟨hv', by rw [habs] at habs'; exact habs'⟩

/-- Witness for C2: a constant-zero trajectory of the minimum length 50
is classified `"A"` (the theorem is applied at `piQ = 3 > 0`). -/
theorem C2_witness :
    (0:ℚ) < 3 ∧ classify_phase_trajectory 3 (List.replicate 50 0) = "A" := by
  have h := C2_classifier_characterization 3 (by norm_num) (List.replicate 50 0)
  have htail : tailMod 3 (List.replicate 50 (0:ℚ)) = List.replicate 5 0 := by
    simp [tailMod, npMod, List.drop_replicate]
  have hvz : listVar (List.replicate 5 (0:ℚ)) = 0 := by
    simp [listVar, listMean]
  have hmz : listMean (List.replicate 5 (0:ℚ)) = 0 := by
    simp [listMean]
  refine ⟨by norm_num, h.1.mpr ⟨by simp, ?_, ?_⟩⟩
  · rw [htail, hvz]
    norm_num [tol_conv]
  · rw [htail, hmz]
    norm_num [tol_pi]

/-- C10: The three-way classifier is invariant under shifting each input
sample by a whole number of periods `2π`: the tail is reduced mod `2π`
elementwise before the mean and variance are computed, and the
minimum-length check depends only on the length, which the elementwise
shift preserves. -/
theorem C10_classifier_invariant_under_period_shifts (piQ : ℚ) (hpi : 0 < piQ)
    (l : List ℚ) (ks : List ℤ) (hlen : ks.length = l.length) :
    classify_phase_trajectory piQ
        (List.zipWith (fun (x : ℚ) (k : ℤ) => x + 2 * piQ * (k : ℚ)) l ks)
      = classify_phase_trajectory piQ l := by
  have hpne : (2 : ℚ) * piQ ≠ 0 := by positivity
  have hplen : (List.zipWith (fun (x : ℚ) (k : ℤ) => x + 2 * piQ * (k : ℚ)) l ks).length
      = l.length := by
    simp [List.length_zipWith, hlen]
  have hmap : ∀ (l' : List ℚ) (ks' : List ℤ), ks'.length = l'.length →
      (List.zipWith (fun (x : ℚ) (k : ℤ) => x + 2 * piQ * (k : ℚ)) l' ks').map (npMod (2 * piQ))
        = l'.map (npMod (2 * piQ)) := by
    intro l'
    induction l' with
    | nil => intro ks' _; simp
    | cons x xs ih =>
      intro ks' h
      rcases ks' with _ | ⟨k, ks''⟩
      · simp at h
      · simp only [List.zipWith_cons_cons, List.map_cons]
        rw [npMod_add_int_mul hpne x k, ih ks'' (by simpa using h)]
  have htail : tailMod piQ (List.zipWith (fun (x : ℚ) (k : ℤ) => x + 2 * piQ * (k : ℚ)) l ks)
      = tailMod piQ l := by
    unfold tailMod
    rw [hplen, List.drop_zipWith]
    exact hmap (l.drop (9 * l.length / 10)) (ks.drop (9 * l.length / 10))
      (by simp [hlen])
  simp only [classify_phase_trajectory, hplen, htail]

/-- Witness for C10: shifting the two samples of a concrete trajectory by
`+5` and `-7` periods leaves the classification unchanged. -/
theorem C10_witness :
    classify_phase_trajectory 3
        (List.zipWith (fun (x : ℚ) (k : ℤ) => x + 2 * 3 * (k : ℚ)) [1, 2] [5, -7])
      = classify_phase_trajectory 3 [1, 2] :=
  C10_classifier_invariant_under_period_shifts 3 (by norm_num) [1, 2] [5, -7] rfl

/-! ### Discrete boundary extractor, variant 1: the A→C transition
detection of `src/scripts/phase_sector_boundary_fine_scan.py`,
lines 101-122. -/

/-- Lines 103-104: the list of indices of `sector_list` carrying label
`s` (`[i for i, x in enumerate(sector_list) if x == s]`), in increasing
order. -/
def idxWith (s : String) (sector_list : List String) : List ℕ :=
  (List.range sector_list.length).filter (fun i => sector_list.getD i "" = s)

/-- Lines 106-119: if no index is labeled `"A"` or none is labeled `"C"`,
or the first `"C"` does not come strictly after the last `"A"`, report no
boundary; otherwise report the midpoint of the two bracketing `k`
coordinates. -/
def boundary1 (k_values : List ℚ) (sector_list : List String) : Option ℚ :=
  match (idxWith "A" sector_list).max?, (idxWith "C" sector_list).min? with
  | some last_A, some first_C =>
    if first_C ≤ last_A then none
    else some ((k_values.getD last_A 0 + k_values.getD first_C 0) / 2)
  | _, _ => none

theorem mem_idxWith {s : String} {sector_list : List String} {i : ℕ} :
    i ∈ idxWith s sector_list ↔
      i < sector_list.length ∧ sector_list.getD i "" = s := by
  simp [idxWith, List.mem_filter, List.mem_range]

/-- C3: For every row of sector labels ordered along one axis, discrete
boundary variant 1 locates the highest index labeled `"A"` and the lowest
index labeled `"C"`; if no sample of either label exists, or the first
`"C"` does not come strictly after the last `"A"`, it reports no boundary
(`none`); otherwise it returns the midpoint of the two bracketing
coordinate values.  In particular labels `[A,A,A,C,C]` at coordinates
`[0,1,2,3,4]` yield `2.5`, and an all-`"A"` or all-`"C"` row yields no
boundary. -/
theorem C3_variant1_midpoint_or_no_boundary :
    (∀ (k_values : List ℚ) (sector_list : List String),
      (∀ i, i < sector_list.length → sector_list.getD i "" ≠ "A") →
      boundary1 k_values sector_list = none)
    ∧ (∀ (k_values : List ℚ) (sector_list : List String),
      (∀ i, i < sector_list.length → sector_list.getD i "" ≠ "C") →
      boundary1 k_values sector_list = none)
    ∧ (∀ (k_values : List ℚ) (sector_list : List String) (i j : ℕ),
      i < sector_list.length → sector_list.getD i "" = "A" →
      (∀ m, i < m → m < sector_list.length → sector_list.getD m "" ≠ "A") →
      j < sector_list.length → sector_list.getD j "" = "C" →
      (∀ m, m < j → sector_list.getD m "" ≠ "C") →
      boundary1 k_values sector_list =
        if j ≤ i then none
        else some ((k_values.getD i 0 + k_values.getD j 0) / 2))
    ∧ boundary1 [0, 1, 2, 3, 4] ["A", "A", "A", "C", "C"] = some (5/2)
    ∧ boundary1 [0, 1] ["A", "A"] = none
    ∧ boundary1 [0, 1] ["C", "C"] = none := by
  have hnoA : ∀ (k_values : List ℚ) (sector_list : List String),
      (∀ i, i < sector_list.length → sector_list.getD i "" ≠ "A") →
      boundary1 k_values sector_list = none := by
    intro k_values sector_list h
    have hnil : idxWith "A" sector_list = [] := by
      unfold idxWith
      rw [List.filter_eq_nil_iff]
      intro a ha
      simp only [List.mem_range] at ha
      simpa using h a ha
    simp [boundary1, hnil]
  have hnoC : ∀ (k_values : List ℚ) (sector_list : List String),
      (∀ i, i < sector_list.length → sector_list.getD i "" ≠ "C") →
      boundary1 k_values sector_list = none := by
    intro k_values sector_list h
    have hnil : idxWith "C" sector_list = [] := by
      unfold idxWith
      rw [List.filter_eq_nil_iff]
      intro a ha
      simp only [List.mem_range] at ha
      simpa using h a ha
    simp [boundary1, hnil]
  have hmain : ∀ (k_values : List ℚ) (sector_list : List String) (i j : ℕ),
      i < sector_list.length → sector_list.getD i "" = "A" →
      (∀ m, i < m → m < sector_list.length → sector_list.getD m "" ≠ "A") →
      j < sector_list.length → sector_list.getD j "" = "C" →
      (∀ m, m < j → sector_list.getD m "" ≠ "C") →
      boundary1 k_values sector_list =
        if j ≤ i then none
        else some ((k_values.getD i 0 + k_values.getD j 0) / 2) := by
    intro k_values sector_list i j hi hA hAlast hj hC hCfirst
    have hmax : (idxWith "A" sector_list).max? = some i := by
      rw [List.max?_eq_some_iff']
      refine ⟨mem_idxWith.mpr ⟨hi, hA⟩, ?_⟩
      intro b hb
      obtain ⟨hb1, hb2⟩ := mem_idxWith.mp hb
      by_contra hbi
      exact hAlast b (Nat.lt_of_not_le (fun hle => hbi (Nat.le_of_lt_succ (Nat.lt_succ_of_le hle)))) hb1 hb2
    have hmin : (idxWith "C" sector_list).min? = some j := by
      rw [List.min?_eq_some_iff']
      refine ⟨mem_idxWith.mpr ⟨hj, hC⟩, ?_⟩
      intro b hb
      obtain ⟨hb1, hb2⟩ := mem_idxWith.mp hb
      by_contra hbj
      exact hCfirst b (Nat.lt_of_not_le hbj) hb2
    simp [boundary1, hmax, hmin]
  refine ⟨hnoA, hnoC, hmain, ?_, ?_, ?_⟩
  · have h := hmain [0, 1, 2, 3, 4] ["A", "A", "A", "C", "C"] 2 3
      (by decide) (by decide)
      (by
        intro m h1 h2
        have hm : m < 5 := by simpa using h2
        interval_cases m <;> decide)
      (by decide) (by decide)
      (by intro m h1; interval_cases m <;> decide)
    rw [h]
    norm_num
  · refine hnoC [0, 1] ["A", "A"] ?_
    intro i h
    have hi : i < 2 := by simpa using h
    interval_cases i <;> decide
  · refine hnoA [0, 1] ["C", "C"] ?_
    intro i h
    have hi : i < 2 := by simpa using h
    interval_cases i <;> decide

/-- Witness for C3: the row `[A, C]` at coordinates `[10, 20]` has its
last `"A"` at index 0 and first `"C"` at index 1, and variant 1 reports
the midpoint `15`. -/
theorem C3_witness : boundary1 [10, 20] ["A", "C"] = some 15 := by
  have h := C3_variant1_midpoint_or_no_boundary.2.2.1 [10, 20] ["A", "C"] 0 1
    (by decide) (by decide)
    (by
      intro m h1 h2
      have hm : m < 2 := by simpa using h2
      interval_cases m
      decide)
    (by decide) (by decide)
    (by
      intro m h1
      interval_cases m
      decide)
  rw [h]
  norm_num

/-! ### Discrete boundary extractor, variant 2: the pairwise A–C
detection of `src/scripts/phase_sector_boundary_from_zoom.py`,
lines 61 and 84-89. -/

/-- Line 61: `sector_map = {"A": 0, "B": 1, "C": 2}`; `pandas.map` sends
any other label to NaN, embedded as `none`. -/
def sector_map (s : String) : Option ℕ :=
  if s = "A" then some 0
  else if s = "B" then some 1
  else if s = "C" then some 2
  else none

/-- Line 86: the Python set equality `{s1, s2} == {0, 2}`; a NaN code
(unmapped label) never equals a number, so such a pair fails the test. -/
def isACpair (s1 s2 : Option ℕ) : Prop :=
  match s1, s2 with
  | some a, some b => ({a, b} : Finset ℕ) = {0, 2}
  | _, _ => False

instance instDecidableIsACpair (s1 s2 : Option ℕ) : Decidable (isACpair s1 s2) :=
  match s1, s2 with
  | some a, some b =>
      (inferInstance : Decidable (({a, b} : Finset ℕ) = {0, 2}))
  | none, none => isFalse (fun h => h)
  | none, some _ => isFalse (fun h => h)
  | some _, none => isFalse (fun h => h)

/-- Lines 84-89: for every pair of samples adjacent in the row ordering,
append the midpoint of their coordinates whenever their coded labels form
exactly the set `{A, C}`. -/
def boundary2 : List (ℚ × Option ℕ) → List ℚ
  | p :: q :: rest =>
    (if isACpair p.2 q.2 then [(p.1 + q.1) / 2] else []) ++ boundary2 (q :: rest)
  | _ => []

theorem boundary2_cons_cons (p q : ℚ × Option ℕ) (rest : List (ℚ × Option ℕ)) :
    boundary2 (p :: q :: rest)
      = (if isACpair p.2 q.2 then [(p.1 + q.1) / 2] else []) ++ boundary2 (q :: rest) :=
  rfl

theorem mem_boundary2 : ∀ (L : List (ℚ × Option ℕ)) (x : ℚ),
    x ∈ boundary2 L ↔ ∃ i, i + 1 < L.length ∧
      isACpair (L.getD i (0, none)).2 (L.getD (i + 1) (0, none)).2 ∧
      x = ((L.getD i (0, none)).1 + (L.getD (i + 1) (0, none)).1) / 2 := by
  intro L
  induction L with
  | nil => intro x; simp [boundary2]
  | cons p L ih =>
    intro x
    rcases L with _ | ⟨q, rest⟩
    · simp [boundary2]
    · rw [boundary2_cons_cons, List.mem_append]
      constructor
      · rintro (hx | hx)
        · by_cases hc : isACpair p.2 q.2
          · rw [if_pos hc] at hx
            refine ⟨0, by simp, by simpa using hc, ?_⟩
            simpa using hx
          · rw [if_neg hc] at hx
            simp at hx
        · obtain ⟨i, h1, h2, h3⟩ := (ih x).mp hx
          refine ⟨i + 1, ?_, ?_, ?_⟩
          · simp only [List.length_cons] at h1 ⊢
            omega
          · simpa using h2
          · simpa using h3
      · rintro ⟨i, h1, h2, h3⟩
        rcases i with _ | i'
        · left
          have hc : isACpair p.2 q.2 := by simpa using h2
          rw [if_pos hc]
          simpa using h3
        · right
          refine (ih x).mpr ⟨i', ?_, ?_, ?_⟩
          · simp only [List.length_cons] at h1 ⊢
            omega
          · simpa using h2
          · simpa using h3

theorem length_boundary2 : ∀ L : List (ℚ × Option ℕ),
    (boundary2 L).length
      = (L.zip L.tail).countP (fun pq => decide (isACpair pq.1.2 pq.2.2)) := by
  intro L
  induction L with
  | nil => simp [boundary2]
  | cons p L ih =>
    rcases L with _ | ⟨q, rest⟩
    · simp [boundary2]
    · rw [boundary2_cons_cons, List.length_append, ih]
      simp only [List.tail_cons, List.zip_cons_cons, List.countP_cons]
      by_cases hc : isACpair p.2 q.2 <;>
        simp [hc, Nat.add_comm]

theorem not_isACpair_with_B : ∀ s : Option ℕ,
    ¬ isACpair (some 1) s ∧ ¬ isACpair s (some 1) := by
  intro s
  constructor
  · rcases s with _ | b
    · exact fun h => h
    · intro h
      have h1 : (1:ℕ) ∈ ({1, b} : Finset ℕ) := by simp
      rw [h] at h1
      simp at h1
  · rcases s with _ | a
    · exact fun h => h
    · intro h
      have h1 : (1:ℕ) ∈ ({a, 1} : Finset ℕ) := by simp
      rw [h] at h1
      simp at h1

/-- C4: For every list of labeled samples ordered within a group,
discrete boundary variant 2 flags one boundary point, at the midpoint of
the pair's coordinates, for exactly those adjacent pairs whose two coded
labels form exactly the unordered target pair `{A, C}` (set `{0, 2}`);
a pair containing the third label `B` (code `1`) contributes nothing,
so the row `[A, B, C]` yields zero boundary points and `[A, C, C]`
yields exactly one point, at the midpoint of positions 0 and 1. -/
theorem C4_variant2_pairwise_midpoints :
    (∀ (L : List (ℚ × Option ℕ)) (x : ℚ),
      x ∈ boundary2 L ↔ ∃ i, i + 1 < L.length ∧
        isACpair (L.getD i (0, none)).2 (L.getD (i + 1) (0, none)).2 ∧
        x = ((L.getD i (0, none)).1 + (L.getD (i + 1) (0, none)).1) / 2)
    ∧ (∀ L : List (ℚ × Option ℕ),
      (boundary2 L).length
        = (L.zip L.tail).countP (fun pq => decide (isACpair pq.1.2 pq.2.2)))
    ∧ (∀ s : Option ℕ, ¬ isACpair (some 1) s ∧ ¬ isACpair s (some 1))
    ∧ boundary2 [(0, sector_map "A"), (1, sector_map "B"), (2, sector_map "C")] = []
    ∧ boundary2 [(0, sector_map "A"), (1, sector_map "C"), (2, sector_map "C")]
        = [1/2] := by
  refine ⟨mem_boundary2, length_boundary2, not_isACpair_with_B, ?_, ?_⟩
  · have h1 : ¬ isACpair (some 0) (some 1) := by decide
    have h2 : ¬ isACpair (some 1) (some 2) := by decide
    simp [boundary2, sector_map, h1, h2]
  · have h1 : isACpair (some 0) (some 2) := by decide
    have h2 : ¬ isACpair (some 2) (some 2) := by decide
    simp [boundary2, sector_map, h1, h2]

/-- Witness for C4: in the two-sample row `[(2, C), (4, A)]` the single
adjacent pair is an unordered `{A, C}` pair, so its midpoint `3` is a
flagged boundary point. -/
theorem C4_witness :
    (3:ℚ) ∈ boundary2 [(2, sector_map "C"), (4, sector_map "A")] := by
  refine (C4_variant2_pairwise_midpoints.1 _ 3).mpr ⟨0, by simp, ?_, ?_⟩
  · have hac : isACpair (some 2) (some 0) := by decide
    simpa [sector_map] using hac
  · simp
    norm_num

/-! ### Parameter sweep driver: the main scanning loop of
`src/scripts/phase_sector_scan.py` (lines 114-169) over the integrator
`run_phase_evolution` of `src/scripts/phase_evolution_ode.py`
(lines 125-189). -/

/-- The result object of the external `scipy.integrate.solve_ivp`: output
arrays `t`, `y[0]`, `y[1]` and the `success` flag (`False` on integration
failure such as non-convergence, in which case the arrays may be truncated
or empty). -/
structure IvpSol where
  t : List ℚ
  y0 : List ℚ
  y1 : List ℚ
  success : Bool

/-- Embedding of `run_phase_evolution` (lines 180-189): it returns
`sol.t, sol.y[0], sol.y[1]` directly; `sol.success` is never consulted.
The external solver is abstracted as a function from the swept parameter
to a solver result. -/
def run_phase_evolution (solve_ivp : ℚ → IvpSol) (params : ℚ) :
    List ℚ × List ℚ × List ℚ :=
  ((solve_ivp params).t, (solve_ivp params).y0, (solve_ivp params).y1)

/-- Embedding of the sweep loop (lines 114-169), reduced to the recorded
information relevant here: for every grid point, in order, integrate and
classify, and write one summary record; there is no `try`/`except` and no
success check, so a row is written for every grid point unconditionally. -/
def scanSweep (solve_ivp : ℚ → IvpSol) (piQ : ℚ) (grid : List ℚ) :
    List (ℚ × String) :=
  grid.map (fun g =>
    (g, classify_phase_trajectory piQ (run_phase_evolution solve_ivp g).2.1))

/-- A solver whose integration at parameter `0` fails
(`success = false`, empty output arrays) and succeeds elsewhere with a
constant-zero trajectory of 50 samples. -/
def failingSolver : ℚ → IvpSol := fun g =>
  if g = 0 then ⟨[], [], [], false⟩
  else ⟨List.replicate 50 1, List.replicate 50 0, List.replicate 50 0, true⟩

/-- The same solver outputs with `success = true` everywhere: a solver
that reports success but returns the identical arrays. -/
def silentSolver : ℚ → IvpSol := fun g =>
  if g = 0 then ⟨[], [], [], true⟩
  else ⟨List.replicate 50 1, List.replicate 50 0, List.replicate 50 0, true⟩

theorem classify_empty_C (piQ : ℚ) : classify_phase_trajectory piQ [] = "C" := rfl

theorem classify_replicate_zero_A :
    classify_phase_trajectory 3 (List.replicate 50 0) = "A" := by
  have htail : tailMod 3 (List.replicate 50 (0:ℚ)) = List.replicate 5 0 := by
    simp [tailMod, npMod, List.drop_replicate]
  have hv : listVar (List.replicate 5 (0:ℚ)) = 0 := by simp [listVar, listMean]
  have hm : listMean (List.replicate 5 (0:ℚ)) = 0 := by simp [listMean]
  simp only [classify_phase_trajectory, htail, hv, hm]
  rw [if_neg (by simp), if_pos]
  constructor
  · norm_num [tol_conv]
  · norm_num [tol_pi]

/-- Evaluation of the sweep with the failing solver: the failed point
produces the ordinary record `(0, "C")`. -/
theorem scanSweep_failing_eval :
    scanSweep failingSolver 3 [0, 1] = [(0, "C"), (1, "A")] := by
  have h0 : failingSolver 0 = ⟨[], [], [], false⟩ := by simp [failingSolver]
  have h1 : failingSolver 1 =
      ⟨List.replicate 50 1, List.replicate 50 0, List.replicate 50 0, true⟩ := by
    norm_num [failingSolver]
  simp only [scanSweep, List.map_cons, List.map_nil, run_phase_evolution, h0, h1]
  rw [classify_empty_C, classify_replicate_zero_A]

/-- C5 counterexample: the sweep over grid `[0, 1]` with a solver that
fails at `0` neither omits nor flags the failed point: it writes the
ordinary record `(0, "C")`, indistinguishable from a genuine
non-convergent classification, and the whole sweep output equals that of
a solver reporting success everywhere — the failure is silently
represented as a degenerate trajectory, refuting the claim that it is
reported. -/
theorem C5_counterexample :
    scanSweep failingSolver 3 [0, 1] = [(0, "C"), (1, "A")]
    ∧ scanSweep failingSolver 3 [0, 1] = scanSweep silentSolver 3 [0, 1]
    ∧ (failingSolver 0).success = false := by
  refine ⟨scanSweep_failing_eval, ?_, by simp [failingSolver]⟩
  have h0f : failingSolver 0 = ⟨[], [], [], false⟩ := by simp [failingSolver]
  have h0s : silentSolver 0 = ⟨[], [], [], true⟩ := by simp [silentSolver]
  have h1f : failingSolver 1 =
      ⟨List.replicate 50 1, List.replicate 50 0, List.replicate 50 0, true⟩ := by
    norm_num [failingSolver]
  have h1s : silentSolver 1 =
      ⟨List.replicate 50 1, List.replicate 50 0, List.replicate 50 0, true⟩ := by
    norm_num [silentSolver]
  simp [scanSweep, run_phase_evolution, h0f, h0s, h1f, h1s]

/-- C5 (amended): an integration failure at one grid point does not abort
the sweep — every grid point yields exactly one record, in grid order —
but the failed point's record is neither omitted nor flagged and the
failure is not reported: the sweep output depends only on the solver's
output arrays and is invariant under arbitrary changes to the `success`
flags, so a failed integration is recorded as an ordinary (possibly
degenerate) trajectory record. -/
theorem C5_sweep_processes_all_and_ignores_failure :
    (∀ (solver : ℚ → IvpSol) (piQ : ℚ) (grid : List ℚ),
      (scanSweep solver piQ grid).length = grid.length)
    ∧ (∀ (solver : ℚ → IvpSol) (piQ : ℚ) (grid : List ℚ) (g : ℚ), g ∈ grid →
      (g, classify_phase_trajectory piQ (run_phase_evolution solver g).2.1)
        ∈ scanSweep solver piQ grid)
    ∧ (∀ (s s' : ℚ → IvpSol) (piQ : ℚ) (grid : List ℚ),
      (∀ g, (s g).t = (s' g).t ∧ (s g).y0 = (s' g).y0 ∧ (s g).y1 = (s' g).y1) →
      scanSweep s piQ grid = scanSweep s' piQ grid) := by
  refine ⟨fun solver piQ grid => by simp [scanSweep],
    fun solver piQ grid g hg => List.mem_map_of_mem _ hg,
    fun s s' piQ grid h => ?_⟩
  unfold scanSweep
  apply List.map_congr_left
  intro g _
  rw [run_phase_evolution, run_phase_evolution, (h g).2.1]

/-- Witness for C5 (amended): the concrete failing and silent solvers
share their output arrays, so the theorem makes their sweeps over the
grid `[5]` identical. -/
theorem C5_witness :
    scanSweep failingSolver 3 [5] = scanSweep silentSolver 3 [5] := by
  apply C5_sweep_processes_all_and_ignores_failure.2.2
  intro g
  unfold failingSolver silentSolver
  by_cases hg : g = 0 <;> simp [hg]

/-! ### Grid assembly: `build_grid` in `src/scripts/phase_sector_map_2D.py`
(lines 88-108) and the sector grid of `src/scripts/phase_sector_map.py`
(lines 73-82). -/

/-- The values contributed to one cell: every record whose coordinate pair
matches exactly (`grid[(m_phi, k_rot)].append(P_A)`, lines 91-92), in
record order. -/
def cellVals (rows : List (ℚ × ℚ × ℚ)) (mk : ℚ × ℚ) : List ℚ :=
  rows.filterMap (fun r => if (r.1, r.2.1) = mk then some r.2.2 else none)

/-- Lines 100-106: `PA_grid` starts as all-NaN (`none`) and a cell is set
to the mean of its contributing values only when at least one exists. -/
def PA_cell (rows : List (ℚ × ℚ × ℚ)) (mk : ℚ × ℚ) : Option ℚ :=
  if cellVals rows mk = [] then none else some (listMean (cellVals rows mk))

/-- `phase_sector_map.py` line 73: `code = {"A": 0, "B": 1, "C": 2}` read
through `code.get(sector, 2)` (line 82). -/
def sectorCode (s : String) : ℕ :=
  if s = "A" then 0 else if s = "B" then 1 else 2

/-- `phase_sector_map.py` lines 76-82: the sector grid starts as
`np.zeros(..., dtype=int)` and each matching record overwrites the cell
with its sector code (last record wins); a cell with no matching record
keeps the initial `0`. -/
def sector_cell (rows : List (ℚ × ℚ × String)) (mk : ℚ × ℚ) : ℕ :=
  rows.foldl (fun acc r => if (r.1, r.2.1) = mk then sectorCode r.2.2 else acc) 0

/-- C6 counterexample: build the categorical sector grid from two records
at coordinate pairs `(0,0)` and `(1,1)` only.  The cell `(0,1)` of the
resulting `{0,1} × {0,1}` grid has no contributing record, yet it holds
`0`, the code of the valid sector `"A"` — not a distinguishable "no data"
marker — refuting the claim for the categorical grid. -/
theorem C6_counterexample :
    sector_cell [(0, 0, "C"), (1, 1, "C")] (0, 1) = sectorCode "A"
    ∧ List.filter (fun r => decide ((r.1, r.2.1) = ((0:ℚ), (1:ℚ))))
        [((0:ℚ), (0:ℚ), "C"), (1, 1, "C")] = [] := by
  constructor
  · norm_num [sector_cell, sectorCode, Prod.ext_iff]
  · norm_num [Prod.ext_iff]

/-- C6 (amended): in the continuous grid, duplicate records at the same
coordinate pair are averaged (responses `0.4` and `0.6` give `0.5`) and a
cell with no contributing record is the distinguished `none` ("NaN"),
never a fabricated response; but in the categorical grid a cell with no
contributing record holds the initializer `0`, which coincides with the
code of sector `"A"` rather than a distinct missing marker. -/
theorem C6_grid_missing_cells_and_averaging :
    (∀ (rows : List (ℚ × ℚ × ℚ)) (mk : ℚ × ℚ),
      cellVals rows mk = [] → PA_cell rows mk = none)
    ∧ (∀ (rows : List (ℚ × ℚ × ℚ)) (mk : ℚ × ℚ) (v : ℚ),
      PA_cell rows mk = some v →
        cellVals rows mk ≠ [] ∧ v = listMean (cellVals rows mk))
    ∧ PA_cell [(0, 0, 2/5), (0, 0, 3/5)] (0, 0) = some (1/2)
    ∧ (∀ (rows : List (ℚ × ℚ × String)) (mk : ℚ × ℚ),
      (∀ r ∈ rows, (r.1, r.2.1) ≠ mk) → sector_cell rows mk = 0) := by
  refine ⟨?_, ?_, ?_, ?_⟩
  · intro rows mk h
    simp [PA_cell, h]
  · intro rows mk v h
    by_cases hvs : cellVals rows mk = []
    · rw [PA_cell, if_pos hvs] at h
      exact Option.noConfusion h
    · rw [PA_cell, if_neg hvs] at h
      exact ⟨hvs, (Option.some.injEq _ _ ▸ h).symm⟩
  · have hvals : cellVals [(0, 0, 2/5), (0, 0, 3/5)] ((0:ℚ), (0:ℚ)) = [2/5, 3/5] := by
      simp [cellVals, List.filterMap_cons]
    rw [PA_cell, hvals, if_neg (by simp)]
    norm_num [listMean, List.sum_cons, List.sum_nil]
  · intro rows mk hno
    have hgen : ∀ (l : List (ℚ × ℚ × String)) (acc : ℕ),
        (∀ r ∈ l, (r.1, r.2.1) ≠ mk) →
        l.foldl (fun acc r => if (r.1, r.2.1) = mk then sectorCode r.2.2 else acc)
          acc = acc := by
      intro l
      induction l with
      | nil => intro acc _; rfl
      | cons r l ih =>
        intro acc h
        rw [List.foldl_cons, if_neg (h r (List.mem_cons_self r l))]
        exact ih acc (fun r' hr' => h r' (List.mem_cons_of_mem r hr'))
    exact hgen rows 0 hno

/-- Witness for C6 (amended): an empty record set leaves the continuous
cell `(0,0)` flagged `none`, and a record at `(2,2)` leaves the
categorical cell `(0,1)` at the initializer `0`. -/
theorem C6_witness :
    PA_cell [] ((0:ℚ), (0:ℚ)) = none
    ∧ sector_cell [((2:ℚ), (2:ℚ), "C")] (0, 1) = 0 := by
  constructor
  · exact C6_grid_missing_cells_and_averaging.1 [] ((0:ℚ), (0:ℚ)) rfl
  · apply C6_grid_missing_cells_and_averaging.2.2.2
    intro r hr
    simp only [List.mem_singleton] at hr
    subst hr
    norm_num [Prod.ext_iff]

/-! ### Per-coordinate aggregation: `read_sector_csvs` (lines 40-82) and
`compute_PA_vs_mphi` (lines 89-108) of `src/scripts/compute_mphi_crit.py`. -/

/-- One parsed CSV cell for the optional `P_A` column (lines 56-62):
absent or empty, present but unparseable, or parsed to a float that may be
NaN (`PAField.val none`). -/
inductive PAField where
  | absent : PAField
  | bad : PAField
  | val : Option ℚ → PAField

/-- Row handling of `read_sector_csvs` (lines 46-79): `m_phi` and `k_rot`
must parse, else the row is skipped; a nonempty `P_A` cell is used
directly when it parses (NaN included) and skips the row otherwise; with
no usable `P_A` cell, `P_A = N_A / N_total` is derived only when both
counts parse and `N_total > 0`.  The result is the appended row
`(m_phi, P_A)`, or `none` when the row contributes nothing (`k_rot` is
kept in the record by the code but never read by the aggregation, so it
is dropped here). -/
def rowPA (m k : Option ℚ) (pa : PAField) (ntot na : Option ℚ) :
    Option (ℚ × Option ℚ) :=
  match m, k with
  | some mv, some _ =>
    match pa with
    | PAField.val v => some (mv, v)
    | PAField.bad => none
    | PAField.absent =>
      match ntot, na with
      | some nt, some a => if 0 < nt then some (mv, some (a / nt)) else none
      | _, _ => none
  | _, _ => none

/-- The per-`m_phi` group of `compute_PA_vs_mphi` (lines 90-95): the
non-NaN `P_A` values of the rows at that coordinate (`math.isnan`
excludes a NaN before it is appended), in row order. -/
def groupVals (rows : List (ℚ × Option ℚ)) (m : ℚ) : List ℚ :=
  rows.filterMap (fun r => if r.1 = m then r.2 else none)

/-- Line 106: `arr.std(ddof=1) if len(arr) > 1 else 0.0`, embedded as the
squared standard deviation: the unbiased sample variance with `N - 1`
denominator, and exactly `0` for a group with a single sample. -/
def sampleVar (l : List ℚ) : ℚ :=
  if 1 < l.length then
    ((l.map (fun x => (x - listMean l) ^ 2)).sum) / ((l.length : ℚ) - 1)
  else 0

/-- Lines 90-97: the grouping keys — coordinates carried by at least one
row with a non-NaN response — sorted ascending and without duplicates. -/
def mphiKeys (rows : List (ℚ × Option ℚ)) : List ℚ :=
  ((rows.filterMap (fun r => if r.2.isSome then some r.1 else none)).dedup).mergeSort
    (fun a b => decide (a ≤ b))

/-- `compute_PA_vs_mphi` (lines 89-108): for each sorted key, the group
mean (the response later passed to `find_mphi_crit`) and the group's
(squared) unbiased standard deviation. -/
def compute_PA_vs_mphi (rows : List (ℚ × Option ℚ)) : List (ℚ × ℚ × ℚ) :=
  (mphiKeys rows).map (fun m =>
    (m, listMean (groupVals rows m), sampleVar (groupVals rows m)))

theorem mem_mphiKeys {rows : List (ℚ × Option ℚ)} {m : ℚ} :
    m ∈ mphiKeys rows ↔ ∃ v, (m, some v) ∈ rows := by
  unfold mphiKeys
  rw [List.mem_mergeSort, List.mem_dedup, List.mem_filterMap]
  constructor
  · rintro ⟨⟨m', v?⟩, hmem, hif⟩
    rcases v? with _ | v
    · simp at hif
    · simp only [Option.isSome_some, if_pos] at hif
      obtain rfl : m' = m := by simpa using hif
      exact ⟨v, hmem⟩
  · rintro ⟨v, hmem⟩
    exact ⟨(m, some v), hmem, by simp⟩

/-- C7: For every group of raw rows sharing one coordinate value, the
grouping keys are exactly the coordinates with at least one non-NaN
response and come out sorted ascending; the aggregated entry at a key
carries the group's mean (the response later handed to the crossing
search) and its unbiased sample standard deviation (squared: `N - 1`
denominator, exactly `0` for a single sample, `1/2` rather than the
biased `1/4` for the group `[0, 1]`); a NaN response row is excluded
from every group rather than coerced to `0`; and a response derived from
counts equals `N_A / N_total`, is formed only when the denominator is
positive, and lies in `[0, 1]` for genuine counts
(`0 ≤ N_A ≤ N_total`). -/
theorem C7_aggregation_mean_std_and_counts :
    (∀ (rows : List (ℚ × Option ℚ)) (m : ℚ),
      m ∈ mphiKeys rows ↔ ∃ v, (m, some v) ∈ rows)
    ∧ (∀ rows : List (ℚ × Option ℚ), List.Sorted (· ≤ ·) (mphiKeys rows))
    ∧ (∀ (rows : List (ℚ × Option ℚ)) (m μ v : ℚ),
      (m, μ, v) ∈ compute_PA_vs_mphi rows →
        μ = listMean (groupVals rows m) ∧ v = sampleVar (groupVals rows m))
    ∧ (∀ (pre post : List (ℚ × Option ℚ)) (m mnan : ℚ),
      groupVals (pre ++ (mnan, none) :: post) m = groupVals (pre ++ post) m)
    ∧ (∀ x : ℚ, sampleVar [x] = 0)
    ∧ sampleVar [0, 1] = 1/2
    ∧ (∀ (m k : ℚ) (nt na : Option ℚ),
      rowPA (some m) (some k) (PAField.val none) nt na = some (m, none))
    ∧ (∀ m k nt na : ℚ,
      (0 < nt →
        rowPA (some m) (some k) PAField.absent (some nt) (some na)
          = some (m, some (na / nt)))
      ∧ (¬ 0 < nt →
        rowPA (some m) (some k) PAField.absent (some nt) (some na) = none)
      ∧ (0 < nt → 0 ≤ na → na ≤ nt → 0 ≤ na / nt ∧ na / nt ≤ 1)) := by
  refine ⟨fun rows m => mem_mphiKeys,
    fun rows => by unfold mphiKeys; exact List.sorted_mergeSort' _,
    ?_, ?_, ?_, ?_, fun m k nt na => rfl, ?_⟩
  · intro rows m μ v h
    unfold compute_PA_vs_mphi at h
    rw [List.mem_map] at h
    obtain ⟨m', _, heq⟩ := h
    rw [Prod.ext_iff, Prod.ext_iff] at heq
    obtain ⟨h1, h2, h3⟩ := heq
    subst h1
    exact ⟨h2.symm, h3.symm⟩
  · intro pre post m mnan
    unfold groupVals
    rw [List.filterMap_append, List.filterMap_append, List.filterMap_cons]
    simp [ite_self]
  · intro x
    rfl
  · norm_num [sampleVar, listMean, List.sum_cons, List.sum_nil]
  · intro m k nt na
    refine ⟨fun h => ?_, fun h => ?_,
      fun hnt h0 h1 => ⟨div_nonneg h0 hnt.le, (div_le_one hnt).mpr h1⟩⟩
    · show (if 0 < nt then some (m, some (na / nt)) else none)
          = some (m, some (na / nt))
      rw [if_pos h]
    · show (if 0 < nt then some (m, some (na / nt)) else none)
          = (none : Option (ℚ × Option ℚ))
      rw [if_neg h]

/-- Witness for C7: the counts row `N_total = 4`, `N_A = 3` at coordinate
`2` derives the response `3/4`, which lies in `[0, 1]`. -/
theorem C7_witness :
    rowPA (some 2) (some 0) PAField.absent (some 4) (some 3)
        = some (2, some (3/4))
    ∧ (0:ℚ) ≤ 3/4 ∧ (3:ℚ)/4 ≤ 1 := by
  have h := C7_aggregation_mean_std_and_counts.2.2.2.2.2.2.2 2 0 4 3
  refine ⟨?_, h.2.2 (by norm_num) (by norm_num) (by norm_num)⟩
  have h1 := h.1 (by norm_num)
  rw [h1]
